import Mathlib

/-!
Shallow embedding of the core of `genomepy/functions.py` (interval parsing,
strand-aware normalization and extension, spliced sequence stitching with
reverse complementation, and weighted random-region sampling), together with
theorems settling the specification claims about it.

Python exceptions are modelled with an explicit error type; machine floats of
the original are modelled with rationals; the external `pyfaidx` index is
modelled from the spec's SequenceIndex contract (0-based, half-open fetch).
-/

/-- Errors raised by the modelled Python code: `IndexError` from out-of-range
list subscripts, `TypeError` from `open` applied to a list, `ValueError` with
its message string. -/
inductive PyError where
  | indexError : PyError
  | typeError : PyError
  | valueError : String → PyError
deriving Repr, DecidableEq

/-- Model of a `pyfaidx.Sequence` object: name, bases, and the genomic span
attributes `start`/`end` (`end` is a Lean keyword, rendered `stop`). -/
structure PySequence where
  name : String
  seq : List Char
  start : Int
  stop : Int
deriving Repr, DecidableEq

/-- A genome is an association list from chromosome name to its bases
(the in-scope part of the pyfaidx `Fasta` dict interface). -/
abbrev GenomeData : Type := List (String × List Char)

/-- Look up a chromosome's bases (`self[chrom]`); absent chromosomes, which
the spec routes to MissingIndexError and no claim exercises, give `[]`. -/
def lookupSeq (g : GenomeData) (chrom : String) : List Char :=
  match g.find? (fun p => p.1 == chrom) with
  | some p => p.2
  | none => []

/-- Modelled from the spec: nucleotide complement used by the external
`pyfaidx` reverse-complement operator `-chunk` (pyfaidx is not part of this
repository's sources). Pairs A/T and C/G in both cases, leaves other
symbols unchanged. -/
def complement (c : Char) : Char :=
  match c with
  | 'A' => 'T'
  | 'T' => 'A'
  | 'C' => 'G'
  | 'G' => 'C'
  | 'a' => 't'
  | 't' => 'a'
  | 'c' => 'g'
  | 'g' => 'c'
  | x => x

/-- Modelled from the spec: reverse complement of a base string (glossary:
"reversing a nucleotide sequence and substituting each base with its pairing
complement"). -/
def revcomp (s : List Char) : List Char :=
  (s.reverse).map complement

/-- Modelled from the spec: `SequenceIndex` fetch — substring of a chromosome
by 0-based half-open `(start, end)` (spec section 3); the returned chunk
carries the requested span in its `start`/`stop` attributes. The real
implementation is the external `pyfaidx.Faidx.fetch`, absent from `src/`. -/
def fetch (g : GenomeData) (name : String) (s e : Int) : PySequence :=
  { name := name
    seq := ((lookupSeq g name).drop s.toNat).take (e - s).toNat
    start := s
    stop := e }

/-- Embedding of `Genome.get_spliced_seq` (functions.py lines 268-285):
fetch a chunk per interval, record `start` from the first fetched chunk and
`end` from the last fetched chunk, then stitch — reversed order with each
chunk reverse-complemented when `rc`, given order otherwise. Empty interval
lists hit `chunks[0]`, an `IndexError`. -/
def get_spliced_seq (g : GenomeData) (name : String)
    (intervals : List (Int × Int)) (rc : Bool) : Except PyError PySequence :=
  let chunks := intervals.map (fun p => fetch g name p.1 p.2)
  match chunks.head?, chunks.getLast? with
  | some c0, some cl =>
    let seq :=
      if rc then ((chunks.reverse).map (fun c => revcomp c.seq)).flatten
      else (chunks.map (fun c => c.seq)).flatten
    .ok { name := name, seq := seq, start := c0.start, stop := cl.stop }
  | _, _ => .error .indexError

/-- Python whitespace as recognized by `str.strip()` for the inputs in
scope. -/
def isSpaceChar (c : Char) : Bool :=
  c == ' ' || c == '\t' || c == '\n' || c == '\r'

/-- Model of Python `str.strip()` on a character list. -/
def trimChars (l : List Char) : List Char :=
  ((l.dropWhile isSpaceChar).reverse.dropWhile isSpaceChar).reverse

/-- Model of Python `str.split(sep)` for a one-character separator:
splitting the empty string gives one empty field, and each separator
occurrence starts a new field. -/
def splitOnChar (sep : Char) : List Char → List (List Char)
  | [] => [[]]
  | c :: rest =>
    let r := splitOnChar sep rest
    if c == sep then [] :: r
    else (c :: r.headD []) :: r.tail

/-- True when `l` is a nonempty list of decimal digits (one digit-run group
of the region pattern, and the digit part of an integer literal). -/
def isDigits (l : List Char) : Bool :=
  !l.isEmpty && l.all (fun c => c.isDigit)

/-- Decimal value of a digit list. -/
def charsToNat (l : List Char) : ℕ :=
  l.foldl (fun acc c => acc * 10 + (c.toNat - 48)) 0

/-- Model of Python `int(...)` on a field: an optional minus sign followed
by digits; anything else is a `ValueError`. -/
def pyInt (s : List Char) : Except PyError Int :=
  match s with
  | '-' :: rest =>
    if isDigits rest then .ok (-(charsToNat rest : Int))
    else .error (.valueError "invalid literal for int() with base 10")
  | _ =>
    if isDigits s then .ok ((charsToNat s : Int))
    else .error (.valueError "invalid literal for int() with base 10")

/-- Decimal digits of `n`, most significant first, with enough fuel. -/
def natChars : ℕ → ℕ → List Char
  | 0, _ => []
  | fuel + 1, n =>
    if n < 10 then [Char.ofNat (n + 48)]
    else natChars fuel (n / 10) ++ [Char.ofNat (n % 10 + 48)]

/-- Model of Python `str(...)` of an integer, for the synthesized record
name `"{}:{}-{}".format(chrom, start, end)`. -/
def intChars (i : Int) : List Char :=
  if i < 0 then '-' :: natChars (i.natAbs + 1) i.natAbs
  else natChars (i.natAbs + 1) i.natAbs

/-- Sequence an `Except`-returning function over a list, stopping at the
first error (the behaviour of a Python loop or comprehension that raises). -/
def mapExcept (f : α → Except PyError β) : List α → Except PyError (List β)
  | [] => .ok []
  | x :: rest =>
    match f x with
    | .error e => .error e
    | .ok y =>
      match mapExcept f rest with
      | .error e => .error e
      | .ok ys => .ok (y :: ys)

/-- Intermediate state of one BED line inside `Genome._bed_to_seqs`, after
field parsing and BED12 block decoding, before the half-open fix and the
extension step: chromosome, record name, parallel `starts`/`ends` lists and
the reverse-complement flag. -/
structure BedPre where
  chrom : String
  name : String
  starts : List Int
  ends : List Int
  rc : Bool
deriving Repr, DecidableEq

/-- Embedding of the BED12 block decoding (functions.py lines 316-320):
field 11 (block starts) and field 10 (block sizes) are split on commas with
the final token dropped, each block start is offset by the record start, and
each end is the offset start plus the block size (`zip` truncating to the
shorter list as in Python). -/
def bed12Intervals (start : Int) (f10 f11 : List Char) :
    Except PyError (List Int × List Int) :=
  match mapExcept pyInt ((splitOnChar ',' f11).dropLast) with
  | .error e => .error e
  | .ok starts0 =>
    match mapExcept pyInt ((splitOnChar ',' f10).dropLast) with
    | .error e => .error e
    | .ok sizes =>
      let starts := starts0.map (fun x => start + x)
      let ends := ((starts.zip sizes).map (fun p => p.1 + p.2))
      .ok (starts, ends)

/-- Embedding of the per-line parsing part of `Genome._bed_to_seqs`
(functions.py lines 293-324): skip comment/track lines (`none`), split on
tabs, parse `start`/`end` (missing fields raise `IndexError`, non-integers
`ValueError`), read the strand flag from field 5 when `stranded`, decode
BED12 blocks when exactly 12 fields are present, and take the name from
field 4 or synthesize `chrom:start-end`. -/
def bedParse (line : String) (stranded : Bool) :
    Except PyError (Option BedPre) :=
  let cs := line.toList
  if cs.take 1 == ['#'] || cs.take 5 == "track".toList then .ok none
  else
    let vals := splitOnChar '\t' (trimChars cs)
    match vals[1]?, vals[2]? with
    | some v1, some v2 =>
      match pyInt v1, pyInt v2 with
      | .ok start, .ok e =>
        let rc := stranded && (vals.getD 5 [] == ['-'])
        let chrom := vals.getD 0 []
        let name : String := match vals[3]? with
          | some nm => String.mk nm
          | none =>
            String.mk (chrom ++ ':' :: intChars start ++ '-' :: intChars e)
        if vals.length == 12 then
          match bed12Intervals start (vals.getD 10 []) (vals.getD 11 []) with
          | .error err => .error err
          | .ok (starts, ends) =>
            .ok (some { chrom := String.mk chrom, name := name,
                        starts := starts, ends := ends, rc := rc })
        else
          .ok (some { chrom := String.mk chrom, name := name,
                      starts := [start], ends := [e], rc := rc })
      | .error err, _ => .error err
      | _, .error err => .error err
    | _, _ => .error .indexError

/-- Embedding of the half-open-to-inclusive coordinate fix (functions.py
lines 325-329): on the reverse strand every start is incremented, otherwise
every end is decremented. -/
def bedFix (p : BedPre) : BedPre :=
  if p.rc then { p with starts := p.starts.map (fun s => s + 1) }
  else { p with ends := p.ends.map (fun e => e - 1) }

/-- Model of Python `xs[0] -= d` on a list: `IndexError` when empty. -/
def decHead (xs : List Int) (d : Int) : Except PyError (List Int) :=
  match xs with
  | [] => .error .indexError
  | x :: rest => .ok ((x - d) :: rest)

/-- Model of Python `xs[-1] += d` on a list: `IndexError` when empty. -/
def incLast (xs : List Int) (d : Int) : Except PyError (List Int) :=
  match xs with
  | [] => .error .indexError
  | [x] => .ok [x + d]
  | x :: y :: rest =>
    match incLast (y :: rest) d with
    | .error e => .error e
    | .ok ys => .ok (x :: ys)

/-- One guarded mutation of the extension step (functions.py lines 331-341):
when the amount is nonzero, grow the last end (`onEnd`) or shrink the first
start. -/
def extendStep (amt : Int) (onEnd : Bool) (starts ends : List Int) :
    Except PyError (List Int × List Int) :=
  if amt = 0 then .ok (starts, ends)
  else if onEnd then
    match incLast ends amt with
    | .error e => .error e
    | .ok ys => .ok (starts, ys)
  else
    match decHead starts amt with
    | .error e => .error e
    | .ok xs => .ok (xs, ends)

/-- Embedding of the extension step of `Genome._bed_to_seqs` (functions.py
lines 331-341), combining the two guarded mutations: `extend_up` affects the
last end on the reverse strand and otherwise the first start; `extend_down`
affects the first start on the reverse strand and otherwise the last end. -/
def bedExtend (eu ed : Int) (p : BedPre) : Except PyError BedPre :=
  match extendStep eu p.rc p.starts p.ends with
  | .error e => .error e
  | .ok (s1, e1) =>
    match extendStep ed (!p.rc) s1 e1 with
    | .error e => .error e
    | .ok (s2, e2) => .ok { p with starts := s2, ends := e2 }

/-- Embedding of one full loop iteration of `Genome._bed_to_seqs`
(functions.py lines 293-345): parse the line, apply the half-open fix and
the extension, zip starts with ends, splice, and yield the named sequence
(`none` for skipped comment/track lines). -/
def bed_to_seq (g : GenomeData) (line : String) (stranded : Bool)
    (eu ed : Int) : Except PyError (Option (String × List Char)) :=
  match bedParse line stranded with
  | .error e => .error e
  | .ok none => .ok none
  | .ok (some p) =>
    match bedExtend eu ed (bedFix p) with
    | .error e => .error e
    | .ok q =>
      match get_spliced_seq g q.chrom (q.starts.zip q.ends) q.rc with
      | .error e => .error e
      | .ok s => .ok (some (q.name, s.seq))

/-- Embedding of the region-string branch of `Genome._region_to_seqs`
(functions.py lines 352-371): split `chrom:start-end`, subtract `extend_up`
from the start and add `extend_down` to the end (malformed strings raise
`ValueError` from tuple unpacking or `int`). -/
def regionParse (name : String) (eu ed : Int) :
    Except PyError (String × Int × Int) :=
  match splitOnChar ':' name.toList with
  | [chrom, coords] =>
    match mapExcept pyInt (splitOnChar '-' coords) with
    | .error err => .error err
    | .ok [s, e] => .ok (String.mk chrom, s - eu, e + ed)
    | .ok _ => .error (.valueError "not enough values to unpack")
  | _ => .error (.valueError "not enough values to unpack")

/-- Model of matching the anchored pattern of `get_track_type`
(functions.py line 191): the whole string decomposes as a nonempty prefix
segment, a colon, a nonempty digit run, a dash, and a nonempty digit run.
Matchability is decided by scanning all colon/dash split positions. -/
def isRegionL (l : List Char) : Bool :=
  (List.range l.length).any (fun i =>
    decide (0 < i) && (l.getD i ' ' == ':') &&
      (List.range l.length).any (fun j =>
        decide (i < j) && (l.getD j ' ' == '-') &&
          isDigits ((l.drop (i + 1)).take (j - i - 1)) &&
          isDigits (l.drop (j + 1))))

/-- The region pattern applied to a string. -/
def isRegion (s : String) : Bool :=
  isRegionL s.toList

/-- A track source: either an in-memory list of strings or a file, given by
its lines. -/
inductive Track where
  | list : List String → Track
  | file : List String → Track
deriving Repr, DecidableEq

/-- Embedding of `get_track_type` (functions.py lines 190-200): for a list,
test the first element against the region pattern (`IndexError` on an empty
list) and return "interval" on a match; any other list falls through to
`open(track)`, a `TypeError`. For a file, the stripped first line decides
"interval" versus "bed" (`readline` on an empty file gives ""). -/
def get_track_type (t : Track) : Except PyError String :=
  match t with
  | .list es =>
    match es.head? with
    | none => .error .indexError
    | some e => if isRegion e then .ok "interval" else .error .typeError
  | .file lines =>
    let line := trimChars (match lines.head? with
                           | some l => l
                           | none => "").toList
    if isRegionL line then .ok "interval" else .ok "bed"

/-- Exact rational arithmetic standing in for Python floats: an integer
numerator over a positive integer denominator, unnormalized so every
operation is a plain integer computation. -/
structure PyQ where
  num : Int
  den : Int
  den_pos : 0 < den

/-- Embed an integer (Python `int` promoted to `float`). -/
def ofIntQ (n : Int) : PyQ :=
  { num := n, den := 1, den_pos := Int.zero_lt_one }

/-- Addition of the float stand-ins. -/
def addQ (a b : PyQ) : PyQ :=
  { num := a.num * b.den + b.num * a.den
    den := a.den * b.den
    den_pos := mul_pos a.den_pos b.den_pos }

/-- Multiplication of the float stand-ins. -/
def mulQ (a b : PyQ) : PyQ :=
  { num := a.num * b.num
    den := a.den * b.den
    den_pos := mul_pos a.den_pos b.den_pos }

/-- Order on the float stand-ins, by cross-multiplication (sound because
denominators are positive). -/
def ltQ (a b : PyQ) : Prop :=
  a.num * b.den < b.num * a.den

/-- Non-strict order on the float stand-ins. -/
def leQ (a b : PyQ) : Prop :=
  a.num * b.den ≤ b.num * a.den

instance : DecidableEq PyQ := fun a b =>
  if h1 : a.num = b.num then
    if h2 : a.den = b.den then
      .isTrue (by cases a; cases b; cases h1; cases h2; rfl)
    else .isFalse (fun hc => h2 (by rw [hc]))
  else .isFalse (fun hc => h1 (by rw [hc]))

instance (a b : PyQ) : Decidable (ltQ a b) :=
  inferInstanceAs (Decidable (_ < _))

instance (a b : PyQ) : Decidable (leQ a b) :=
  inferInstanceAs (Decidable (_ ≤ _))

/-- Running cumulative sums of a weight list from an accumulator, as built
by the loop of `_weighted_selection` (functions.py lines 207-213). -/
def cumsum : List PyQ → PyQ → List PyQ
  | [], _ => []
  | w :: rest, acc => addQ acc w :: cumsum rest (addQ acc w)

/-- Embedding of the CPython `bisect.bisect` (= `bisect_right`) binary
search loop, with explicit fuel bounding the statically terminating `while
lo < hi` loop; out-of-range probes (which the real loop never makes) read a
default. -/
def bisectAux (a : List PyQ) (x : PyQ) : ℕ → ℕ → ℕ → ℕ
  | 0, lo, _ => lo
  | fuel + 1, lo, hi =>
    if lo < hi then
      let mid := (lo + hi) / 2
      if ltQ x (a.getD mid (ofIntQ 0)) then bisectAux a x fuel lo mid
      else bisectAux a x fuel (mid + 1) hi
    else lo

/-- `bisect.bisect(a, x)`: the search over the whole list, with enough fuel
for the loop to run to completion. -/
def bisectRight (a : List PyQ) (x : PyQ) : ℕ :=
  bisectAux a x (a.length + 1) 0 a.length

/-- Total weight accumulated by `_weighted_selection`: the same left fold of
additions from the loop, so it coincides with the last cumulative entry by
construction (as the float accumulations of the original do). -/
def totalWeight (l : List (PyQ × α)) : PyQ :=
  (l.map (fun p => p.1)).foldl addQ (ofIntQ 0)

/-- Embedding of `_weighted_selection` (functions.py lines 202-215): build
cumulative weights and the item list, then for each uniform draw `u` look up
`items[bisect.bisect(cuml, u * total_weight)]`; an out-of-range lookup is
Python's `IndexError`. The `n` draws of the original are the entries of
`us`. -/
def weighted_selection (l : List (PyQ × α)) (us : List PyQ) :
    Except PyError (List α) :=
  let cuml := cumsum (l.map (fun p => p.1)) (ofIntQ 0)
  let items := l.map (fun p => p.2)
  mapExcept (fun u =>
    match items[bisectRight cuml (mulQ u (totalWeight l))]? with
    | some it => (.ok it : Except PyError α)
    | none => .error .indexError) us

/-- Model of Python `int(...)` truncation of a rational toward zero: the
T-division of the numerator by the denominator. -/
def ratTrunc (q : PyQ) : Int :=
  Int.tdiv q.num q.den

/-- Case-insensitive count of ambiguous bases in the half-open window
`[s, e)` of a chromosome, as in
`self[chrom][start:end].seq.upper().count("N")`. -/
def countN (seq : List Char) (s e : Int) : ℕ :=
  (((seq.drop s.toNat).take (e - s).toNat).filter
    (fun c => c.toUpper == 'N')).length

/-- Embedding of the bounded retry loop of `Genome.get_random_sequences`
(functions.py lines 408-415): draw a start from the next rng value, accept
the window when its ambiguous-base count is within the cutoff, otherwise
retry with the following rng value; exhausting the fuel (the 50 retries) is
the post-loop `ValueError`. Returns the window and the next rng index. -/
def sampleWindow (seq : List Char) (size winLen : ℕ) (cutoff : PyQ)
    (rng : ℕ → PyQ) : ℕ → ℕ → Except PyError ((Int × Int) × ℕ)
  | _, 0 => .error (.valueError "Failed to find suitable non-N sequence")
  | k, fuel + 1 =>
    let start := ratTrunc (mulQ (rng k) (ofIntQ ((size : Int) - (winLen : Int))))
    let e := start + winLen
    if leQ (ofIntQ (countN seq start e)) cutoff then .ok ((start, e), k + 1)
    else sampleWindow seq size winLen cutoff rng (k + 1) fuel

/-- Embedding of the chromosome loop of `Genome.get_random_sequences`
(functions.py lines 406-417): for each selected chromosome run the retry
loop, threading the rng index, and collect `[chrom, start, end]` in draw
order; any raise aborts the remaining draws. -/
def sampleLoop (g : GenomeData) (winLen : ℕ) (cutoff : PyQ) (rng : ℕ → PyQ) :
    List String → ℕ → Except PyError (List (String × Int × Int))
  | [], _ => .ok []
  | c :: rest, k =>
    match sampleWindow (lookupSeq g c) (lookupSeq g c).length winLen cutoff
        rng k 50 with
    | .error e => .error e
    | .ok r =>
      match sampleLoop g winLen cutoff rng rest r.2 with
      | .error e => .error e
      | .ok others => .ok ((c, r.1) :: others)

/-- Embedding of the eligibility filter of `Genome.get_random_sequences`
(functions.py lines 399-404): default the chromosome subset to all
chromosomes when absent or empty (Python falsiness of `[]`), then keep the
`(size, chrom)` pairs whose size strictly exceeds the window length. -/
def eligibleChroms (g : GenomeData) (chromsOpt : Option (List String))
    (winLen : ℕ) : List (PyQ × String) :=
  let chroms : List String := match chromsOpt with
    | none => g.map (fun p => p.1)
    | some [] => g.map (fun p => p.1)
    | some cs => cs
  (chroms.filter (fun c => winLen < (lookupSeq g c).length)).map
    (fun c => (ofIntQ ((lookupSeq g c).length : Int), c))

/-- Embedding of `Genome.get_random_sequences` (functions.py lines 396-419):
weighted selection of `n` chromosomes by length over the eligible subset
using the first `n` rng values, then the per-chromosome bounded retry loop
over the rest of the rng stream; `cutoff = length * max_n`. -/
def get_random_sequences (g : GenomeData) (n : ℕ) (winLen : ℕ)
    (chromsOpt : Option (List String)) (maxN : PyQ) (rng : ℕ → PyQ) :
    Except PyError (List (String × Int × Int)) :=
  match weighted_selection (eligibleChroms g chromsOpt winLen)
      ((List.range n).map rng) with
  | .error e => .error e
  | .ok sel => sampleLoop g winLen (mulQ (ofIntQ (winLen : Int)) maxN) rng sel n

lemma revcomp_append (a b : List Char) :
    revcomp (a ++ b) = revcomp b ++ revcomp a := by
  simp [revcomp, List.reverse_append]

lemma revcomp_flatten (l : List (List Char)) :
    ((l.reverse).map revcomp).flatten = revcomp l.flatten := by
  induction l with
  | nil => simp [revcomp]
  | cons a l ih =>
    simp only [List.reverse_cons, List.map_append, List.flatten_append,
      List.flatten_cons, List.map_cons, List.flatten_nil, revcomp_append, ih,
      List.append_nil, List.flatten]

/-- Decidable equality for the `Except` results of the embedded functions,
so that concrete runs can be checked by `decide`. -/
instance exceptDecEq {e a : Type} [DecidableEq e] [DecidableEq a] :
    DecidableEq (Except e a) := fun x y =>
  match x, y with
  | .ok u, .ok v =>
    if h : u = v then .isTrue (by rw [h])
    else .isFalse (fun hc => h (by injection hc))
  | .error u, .error v =>
    if h : u = v then .isTrue (by rw [h])
    else .isFalse (fun hc => h (by injection hc))
  | .ok _, .error _ => .isFalse (fun hc => Except.noConfusion hc)
  | .error _, .ok _ => .isFalse (fun hc => Except.noConfusion hc)

lemma head?_map_some {l : List (Int × Int)} {p : Int × Int}
    (f : Int × Int → PySequence) (h : l.head? = some p) :
    (l.map f).head? = some (f p) := by
  rw [List.head?_map, h]
  rfl

lemma getLast?_map_some {l : List (Int × Int)} {p : Int × Int}
    (f : Int × Int → PySequence) (h : l.getLast? = some p) :
    (l.map f).getLast? = some (f p) := by
  rw [List.getLast?_map, h]
  rfl

/-- C1 (amended): the genomic span of the result of `get_spliced_seq` is
taken from the first and last chunk of the original fetch order — the first
interval's start and the last interval's end — regardless of
`reverseComplement`, so the reported start can exceed the reported end only
when the given interval list is itself descending. -/
theorem C1_span_amended (g : GenomeData) (name : String)
    (intervals : List (Int × Int)) (rc : Bool) (p q : Int × Int)
    (h1 : intervals.head? = some p) (h2 : intervals.getLast? = some q) :
    ∃ s, get_spliced_seq g name intervals rc = .ok s ∧
      s.start = p.1 ∧ s.stop = q.2 := by
  have hm1 := head?_map_some (fun r => fetch g name r.1 r.2) h1
  have hm2 := getLast?_map_some (fun r => fetch g name r.1 r.2) h2
  simp only [get_spliced_seq, hm1, hm2]
  exact ⟨_, rfl, rfl, rfl⟩

/-- C1 witness: a concrete reverse-complement splice whose span comes from
the original interval order. -/
theorem C1_span_witness :
    ∃ s, get_spliced_seq [("chr1", "AAAAACCCCCGGGGGTTTTT".toList)] "chr1"
        [(0, 5), (10, 15)] true = .ok s ∧ s.start = 0 ∧ s.stop = 15 :=
  C1_span_amended _ "chr1" _ true (0, 5) (10, 15) rfl rfl

/-- C1 counterexample: for intervals `[(0,5),(10,15)]` with
`reverseComplement` true the reported span is `(0, 15)` — first and last of
the ORIGINAL fetch order — not the `(10, 5)` that the claimed
reversed-order span computation would give. -/
theorem C1_span_counterexample :
    (get_spliced_seq [("chr1", "AAAAACCCCCGGGGGTTTTT".toList)] "chr1"
        [(0, 5), (10, 15)] true).map (fun s => (s.start, s.stop)) =
      Except.ok ((0 : Int), (15 : Int)) ∧
    ¬ ((0 : Int) = 10 ∧ (15 : Int) = 5) := by
  constructor
  · decide
  · decide

/-- C4: for every non-empty interval list, the sequence produced with
`reverseComplement` true equals the reverse complement of the sequence
produced with `reverseComplement` false on the same intervals in the same
order. -/
theorem C4_rc_relation (g : GenomeData) (name : String)
    (intervals : List (Int × Int)) (h : intervals ≠ []) :
    ∃ s t, get_spliced_seq g name intervals true = .ok s ∧
      get_spliced_seq g name intervals false = .ok t ∧
      s.seq = revcomp t.seq := by
  obtain ⟨p, ps, rfl⟩ := List.exists_cons_of_ne_nil h
  have h1 : (p :: ps).head? = some p := rfl
  have h2 : (p :: ps).getLast? = some ((p :: ps).getLast (by simp)) :=
    List.getLast?_eq_getLast _ _
  have hm1 := head?_map_some (fun r => fetch g name r.1 r.2) h1
  have hm2 := getLast?_map_some (fun r => fetch g name r.1 r.2) h2
  simp only [get_spliced_seq, hm1, hm2, if_pos, if_neg, Bool.false_eq_true,
    if_false, if_true]
  refine ⟨_, _, rfl, rfl, ?_⟩
  show (((p :: ps).map (fun r => fetch g name r.1 r.2)).reverse.map
      (fun c => revcomp c.seq)).flatten =
    revcomp ((((p :: ps).map (fun r => fetch g name r.1 r.2)).map
      (fun c => c.seq)).flatten)
  rw [← revcomp_flatten, List.map_reverse, List.map_reverse, List.map_map,
    List.map_map, List.map_map]
  rfl

/-- C4 witness: the relation at the spec's example intervals
`[(0,5),(10,15)]`. -/
theorem C4_rc_relation_witness :
    ∃ s t, get_spliced_seq [("chr1", "AAAAACCCCCGGGGGTTTTT".toList)] "chr1"
        [(0, 5), (10, 15)] true = .ok s ∧
      get_spliced_seq [("chr1", "AAAAACCCCCGGGGGTTTTT".toList)] "chr1"
        [(0, 5), (10, 15)] false = .ok t ∧
      s.seq = revcomp t.seq :=
  C4_rc_relation _ "chr1" [(0, 5), (10, 15)] (by decide)

/-- C2: the half-open-to-inclusive fix is strand-asymmetric — on the reverse
strand every start is incremented by 1, on the forward strand every end is
decremented by 1 — and the BED3 record `chr1 10 20` parsed unstranded
(Forward) extracts a sequence of length exactly 9. -/
theorem C2_halfopen_fix :
    (∀ p : BedPre,
      (bedFix p).rc = p.rc ∧ (bedFix p).chrom = p.chrom ∧
      (bedFix p).name = p.name ∧
      (bedFix p).starts =
        (if p.rc then p.starts.map (fun s => s + 1) else p.starts) ∧
      (bedFix p).ends =
        (if p.rc then p.ends else p.ends.map (fun e => e - 1))) ∧
    (∃ s, bed_to_seq [("chr1", "ACGTACGTACGTACGTACGTACGT".toList)]
        "chr1\t10\t20" false 0 0 = .ok (some s) ∧ s.2.length = 9) := by
  constructor
  · intro p
    by_cases hp : p.rc <;> simp [bedFix, hp]
  · exact ⟨("chr1:10-20", "GTACGTACG".toList), by decide, by decide⟩

lemma getElem?_zip_some {a : List Int} {b : List Int} {i : ℕ} {x y : Int}
    (hx : a[i]? = some x) (hy : b[i]? = some y) :
    (a.zip b)[i]? = some (x, y) := by
  induction a generalizing b i with
  | nil => simp at hx
  | cons u us ih =>
    cases b with
    | nil => simp at hy
    | cons v vs =>
      cases i with
      | zero =>
        simp at hx hy
        simp [List.zip_cons_cons, hx, hy]
      | succ j =>
        simp at hx hy
        simpa [List.zip_cons_cons] using ih hx hy

/-- C3: BED12 block decoding — with block sizes in field 10 and block starts
in field 11 parsing to integer lists (the dropped final token being the one
after the trailing comma), the decoder yields one interval per block in the
encoded order, with `start_i = chromStart + blockStart_i` and
`end_i = start_i + blockSize_i`; concretely, the 12-field line with
chromStart=100, blockSizes="5,5,", blockStarts="0,10," decodes to
starts `[100,110]`, ends `[105,115]` before the inclusive-end adjustment. -/
theorem C3_bed12_blocks :
    (∀ (start : Int) (f10 f11 : List Char) (sizes starts0 : List Int),
      mapExcept pyInt ((splitOnChar ',' f10).dropLast) = .ok sizes →
      mapExcept pyInt ((splitOnChar ',' f11).dropLast) = .ok starts0 →
      ∃ r, bed12Intervals start f10 f11 = .ok r ∧
        r.1.length = starts0.length ∧
        r.2.length = min starts0.length sizes.length ∧
        (∀ (i : ℕ) (b sz : Int), starts0[i]? = some b → sizes[i]? = some sz →
          r.1[i]? = some (start + b) ∧ r.2[i]? = some (start + b + sz))) ∧
    bedParse "chr1\t100\t200\tnm\t0\t+\t100\t200\t0\t2\t5,5,\t0,10," false =
      .ok (some { chrom := "chr1", name := "nm", starts := [100, 110],
                  ends := [105, 115], rc := false }) := by
  constructor
  · intro start f10 f11 sizes starts0 h10 h11
    refine ⟨_, by rw [bed12Intervals, h11, h10], by simp, by simp, ?_⟩
    intro i b sz hb hsz
    have hb' : (starts0.map (fun x => start + x))[i]? = some (start + b) := by
      rw [List.getElem?_map, hb]
      rfl
    constructor
    · exact hb'
    · rw [List.getElem?_map, getElem?_zip_some hb' hsz]
      rfl
  · decide

/-- C3 witness: the decoder applied to chromStart 100, blockSizes "5,5,",
blockStarts "0,10,". -/
theorem C3_bed12_blocks_witness :
    ∃ r, bed12Intervals 100 "5,5,".toList "0,10,".toList = .ok r ∧
      r.1[0]? = some 100 ∧ r.1[1]? = some 110 ∧
      r.2[0]? = some 105 ∧ r.2[1]? = some 115 := by
  obtain ⟨r, hr, _, _, hpt⟩ :=
    C3_bed12_blocks.1 100 "5,5,".toList "0,10,".toList [5, 5] [0, 10]
      (by decide) (by decide)
  obtain ⟨ha0, ha1⟩ := hpt 0 0 5 (by decide) (by decide)
  obtain ⟨hb0, hb1⟩ := hpt 1 10 5 (by decide) (by decide)
  refine ⟨r, hr, ?_, ?_, ?_, ?_⟩
  · simpa using ha0
  · simpa using hb0
  · simpa using ha1
  · simpa using hb1

lemma incLast_ok {xs : List Int} {el : Int} (d : Int)
    (h : xs.getLast? = some el) :
    ∃ ys, incLast xs d = .ok ys ∧ ys.getLast? = some (el + d) ∧
      ys.dropLast = xs.dropLast ∧ ys.head? = (xs.dropLast ++ [el + d]).head? := by
  induction xs with
  | nil => simp at h
  | cons x rest ih =>
    cases rest with
    | nil =>
      simp at h
      subst h
      exact ⟨[x + d], rfl, rfl, rfl, rfl⟩
    | cons y ys =>
      rw [List.getLast?_cons_cons] at h
      obtain ⟨zs, hz1, hz2, hz3, _⟩ := ih h
      refine ⟨x :: zs, ?_, ?_, ?_, ?_⟩
      · rw [incLast, hz1]
      · have hne : zs ≠ [] := by
          intro hc
          rw [hc] at hz2
          simp at hz2
        obtain ⟨z, zs', rfl⟩ := List.exists_cons_of_ne_nil hne
        rw [List.getLast?_cons_cons]
        exact hz2
      · have hne : zs ≠ [] := by
          intro hc
          rw [hc] at hz2
          simp at hz2
        obtain ⟨z, zs', rfl⟩ := List.exists_cons_of_ne_nil hne
        rw [List.dropLast_cons₂, hz3, List.dropLast_cons₂]
      · simp

lemma extendStep_end {ends : List Int} {el : Int} (amt : Int)
    (starts : List Int) (h : ends.getLast? = some el) :
    ∃ e1, extendStep amt true starts ends = .ok (starts, e1) ∧
      e1.getLast? = some (el + amt) ∧ e1.dropLast = ends.dropLast := by
  by_cases ha : amt = 0
  · subst ha
    exact ⟨ends, by rw [extendStep]; simp, by rw [h]; ring_nf, rfl⟩
  · obtain ⟨ys, h1, h2, h3, _⟩ := incLast_ok amt h
    exact ⟨ys, by rw [extendStep, if_neg ha, if_pos rfl, h1], h2, h3⟩

lemma extendStep_start (amt : Int) (s0 : Int) (st ends : List Int) :
    extendStep amt false (s0 :: st) ends = .ok ((s0 - amt) :: st, ends) := by
  by_cases ha : amt = 0
  · subst ha
    rw [extendStep]
    simp
  · rw [extendStep, if_neg ha]
    simp [decHead]

/-- C5: extension is strand-aware for BED records — Forward subtracts
`extend_up` from the first start and adds `extend_down` to the last end,
Reverse adds `extend_up` to the last end and subtracts `extend_down` from
the first start — and symmetric for region strings: for every region string,
relative to its unextended parse, the start is decreased by `extend_up` and
the end increased by `extend_down`; e.g. `chr1:100-200` with extend_up 5
and extend_down 3 covers `chr1:95-203`. -/
theorem C5_extension :
    (∀ (p : BedPre) (eu ed s0 el : Int),
      p.starts.head? = some s0 → p.ends.getLast? = some el →
      ∃ q, bedExtend eu ed p = .ok q ∧ q.rc = p.rc ∧ q.chrom = p.chrom ∧
        q.name = p.name ∧
        q.starts.head? = some (s0 - (if p.rc then ed else eu)) ∧
        q.starts.tail = p.starts.tail ∧
        q.ends.getLast? = some (el + (if p.rc then eu else ed)) ∧
        q.ends.dropLast = p.ends.dropLast) ∧
    (∀ (name : String) (eu ed : Int) (chrom : String) (s e : Int),
      regionParse name 0 0 = .ok (chrom, s, e) →
      regionParse name eu ed = .ok (chrom, s - eu, e + ed)) ∧
    regionParse "chr1:100-200" 5 3 = .ok ("chr1", 95, 203) := by
  refine ⟨?_, ?_, by decide⟩
  · intro p eu ed s0 el h1 h2
    obtain ⟨st, hst⟩ : ∃ st, p.starts = s0 :: st := by
      cases hq : p.starts with
      | nil => rw [hq] at h1; simp at h1
      | cons a t =>
        rw [hq] at h1
        simp at h1
        exact ⟨t, by rw [h1]⟩
    by_cases hrc : p.rc
    · obtain ⟨e1, hs1, hs2, hs3⟩ := extendStep_end eu p.starts h2
      rw [hst] at hs1
      simp only [bedExtend, hrc, hst, hs1, Bool.not_true,
        extendStep_start ed s0 st e1, eq_self_iff_true, if_true]
      exact ⟨_, rfl, rfl, rfl, rfl, rfl, rfl, hs2, hs3⟩
    · rw [Bool.not_eq_true] at hrc
      obtain ⟨e1, hs1, hs2, hs3⟩ :=
        extendStep_end ed ((s0 - eu) :: st) h2
      simp only [bedExtend, hrc, hst, extendStep_start eu s0 st p.ends,
        Bool.not_false, hs1, Bool.false_eq_true, if_false]
      exact ⟨_, rfl, rfl, rfl, rfl, rfl, rfl, hs2, hs3⟩
  · intro name eu ed chrom s e h
    unfold regionParse at h ⊢
    cases hsp : splitOnChar ':' name.toList with
    | nil =>
      rw [hsp] at h
      simp only [] at h
      exact Except.noConfusion h
    | cons a t =>
      cases t with
      | nil =>
        rw [hsp] at h
        simp only [] at h
        exact Except.noConfusion h
      | cons b t2 =>
        cases t2 with
        | cons c t3 =>
          rw [hsp] at h
          simp only [] at h
          exact Except.noConfusion h
        | nil =>
          rw [hsp] at h
          simp only [] at h
          cases hmp : mapExcept pyInt (splitOnChar '-' b) with
          | error err =>
            rw [hmp] at h
            simp only [] at h
            exact Except.noConfusion h
          | ok vs =>
            rw [hmp] at h
            cases vs with
            | nil =>
              simp only [] at h
              exact Except.noConfusion h
            | cons x t4 =>
              cases t4 with
              | nil =>
                simp only [] at h
                exact Except.noConfusion h
              | cons y t5 =>
                cases t5 with
                | cons z t6 =>
                  simp only [] at h
                  exact Except.noConfusion h
                | nil =>
                  simp only [] at h
                  injection h with h
                  rw [Prod.mk.injEq, Prod.mk.injEq] at h
                  obtain ⟨h1, h2, h3⟩ := h
                  simp only []
                  rw [hmp]
                  simp only []
                  rw [← h1, ← h2, ← h3]
                  simp only [sub_zero, add_zero]

/-- C5 witness: a concrete Forward record extended by (5, 3), together with
the region string `chr1:100-200` extended the same way. -/
theorem C5_extension_witness :
    (∃ q, bedExtend 5 3
        { chrom := "chr1", name := "r", starts := [100], ends := [200],
          rc := false } = .ok q ∧
      q.starts.head? = some 95 ∧ q.ends.getLast? = some 203) ∧
    regionParse "chr1:100-200" 5 3 = .ok ("chr1", 95, 203) := by
  obtain ⟨q, hq, _, _, _, hh, _, hl, _⟩ :=
    C5_extension.1
      { chrom := "chr1", name := "r", starts := [100], ends := [200],
        rc := false } 5 3 100 200 rfl rfl
  have hr := C5_extension.2.1 "chr1:100-200" 5 3 "chr1" 100 200 (by decide)
  refine ⟨⟨q, hq, by simpa using hh, by simpa using hl⟩, ?_⟩
  have h95 : (100 : Int) - 5 = 95 := by decide
  have h203 : (200 : Int) + 3 = 203 := by decide
  rw [h95, h203] at hr
  exact hr

/-- C9 (amended): detection inspects only the first line/element; a source
whose first line/element matches `chrom:integer-integer` is treated as a
region-string list; a file source whose first line does not match is treated
as BED; but an in-memory list whose first element does not match is NOT
treated as BED — the list falls through to `open(track)` and fails with a
`TypeError`. -/
theorem C9_track_type (e l : String) (rest lrest : List String) :
    (isRegion e = true → get_track_type (.list (e :: rest)) = .ok "interval") ∧
    (isRegion e = false →
      get_track_type (.list (e :: rest)) = .error .typeError) ∧
    (isRegionL (trimChars l.toList) = true →
      get_track_type (.file (l :: lrest)) = .ok "interval") ∧
    (isRegionL (trimChars l.toList) = false →
      get_track_type (.file (l :: lrest)) = .ok "bed") := by
  refine ⟨?_, ?_, ?_, ?_⟩ <;> intro h <;>
    simp [get_track_type, isRegion, h] <;> simp [isRegion] at h <;> simp [h]

/-- C9 witness: a matching list element gives "interval"; a non-matching
file first line gives "bed". -/
theorem C9_track_type_witness :
    get_track_type (.list ["chr1:1-2"]) = .ok "interval" ∧
    get_track_type (.file ["chr1\t10\t20"]) = .ok "bed" :=
  ⟨(C9_track_type "chr1:1-2" "x" [] []).1 (by decide),
   (C9_track_type "x" "chr1\t10\t20" [] []).2.2.2 (by decide)⟩

/-- C9 counterexample: an in-memory list whose first element does not match
the region pattern is not treated as BED text — `get_track_type` raises a
`TypeError` instead of returning "bed". -/
theorem C9_track_type_counterexample :
    isRegion "foo" = false ∧
    get_track_type (.list ["foo"]) = .error .typeError ∧
    get_track_type (.list ["foo"]) ≠ .ok "bed" := by
  refine ⟨by decide, by decide, by decide⟩

lemma cumsum_length (ws : List PyQ) :
    ∀ acc, (cumsum ws acc).length = ws.length := by
  induction ws with
  | nil => intro acc; rfl
  | cons w rest ih => intro acc; simp [cumsum, ih]

lemma cumsum_getD_last :
    ∀ (ws : List PyQ), ws ≠ [] →
      ∀ acc, (cumsum ws acc).getD (ws.length - 1) (ofIntQ 0) =
        ws.foldl addQ acc := by
  intro ws
  induction ws with
  | nil => intro hne; exact absurd rfl hne
  | cons w rest ih =>
    intro _ acc
    cases rest with
    | nil => simp [cumsum]
    | cons y ys =>
      have hlen : (w :: y :: ys).length - 1 = ((y :: ys).length - 1) + 1 := by
        simp
      rw [cumsum, hlen, List.getD_cons_succ,
        ih (List.cons_ne_nil y ys) (addQ acc w), List.foldl_cons]
      rfl

lemma bisectAux_le (a : List PyQ) (x : PyQ) :
    ∀ (fuel lo hi : ℕ), lo ≤ hi → bisectAux a x fuel lo hi ≤ hi := by
  intro fuel
  induction fuel with
  | zero => intro lo hi h; exact h
  | succ f ih =>
    intro lo hi h
    rw [bisectAux]
    by_cases hlt : lo < hi
    · rw [if_pos hlt]
      by_cases hx : ltQ x (a.getD ((lo + hi) / 2) (ofIntQ 0))
      · rw [if_pos hx]
        exact le_trans (ih lo ((lo + hi) / 2) (by omega)) (by omega)
      · rw [if_neg hx]
        exact ih ((lo + hi) / 2 + 1) hi (by omega)
    · rw [if_neg hlt]
      exact h

lemma bisectAux_lt (a : List PyQ) (x : PyQ) :
    ∀ (fuel lo hi : ℕ), hi - lo ≤ fuel → lo < hi →
      ltQ x (a.getD (hi - 1) (ofIntQ 0)) → bisectAux a x fuel lo hi < hi := by
  intro fuel
  induction fuel with
  | zero => intro lo hi hf hlt _; omega
  | succ f ih =>
    intro lo hi hf hlt hx
    rw [bisectAux, if_pos hlt]
    by_cases hm : ltQ x (a.getD ((lo + hi) / 2) (ofIntQ 0))
    · rw [if_pos hm]
      exact lt_of_le_of_lt (bisectAux_le a x f lo ((lo + hi) / 2) (by omega))
        (by omega)
    · rw [if_neg hm]
      have hne : (lo + hi) / 2 ≠ hi - 1 := by
        intro hc
        rw [hc] at hm
        exact hm hx
      have hmid : (lo + hi) / 2 + 1 < hi := by omega
      exact ih ((lo + hi) / 2 + 1) hi (by omega) hmid hx

lemma bisectRight_lt (a : List PyQ) (x : PyQ) (hne : a ≠ [])
    (hx : ltQ x (a.getD (a.length - 1) (ofIntQ 0))) :
    bisectRight a x < a.length := by
  have hpos : 0 < a.length := List.length_pos.mpr hne
  exact bisectAux_lt a x (a.length + 1) 0 a.length (by omega) hpos hx

lemma mapExcept_ok_all {f : α → Except PyError β} :
    ∀ {xs : List α}, (∀ u ∈ xs, ∃ y, f u = .ok y) →
      ∃ ys, mapExcept f xs = .ok ys ∧ ys.length = xs.length := by
  intro xs
  induction xs with
  | nil => intro _; exact ⟨[], rfl, rfl⟩
  | cons u us ih =>
    intro h
    obtain ⟨y, hy⟩ := h u (List.mem_cons_self u us)
    obtain ⟨ys, hys, hlen⟩ := ih (fun v hv => h v (List.mem_cons_of_mem u hv))
    refine ⟨y :: ys, ?_, by simp [hlen]⟩
    rw [mapExcept, hy, hys]

lemma mulQ_lt_of_lt_one {u t : PyQ} (hu : ltQ u (ofIntQ 1))
    (ht : ltQ (ofIntQ 0) t) : ltQ (mulQ u t) t := by
  have hu' : u.num < u.den := by
    have := hu
    unfold ltQ ofIntQ at this
    simpa using this
  have ht' : 0 < t.num := by
    have := ht
    unfold ltQ ofIntQ at this
    simpa using this
  have h1 : 0 < t.num * t.den := mul_pos ht' t.den_pos
  have h2 : u.num * (t.num * t.den) < u.den * (t.num * t.den) :=
    mul_lt_mul_of_pos_right hu' h1
  unfold ltQ mulQ
  calc u.num * t.num * t.den = u.num * (t.num * t.den) := by ring
    _ < u.den * (t.num * t.den) := h2
    _ = t.num * (u.den * t.den) := by ring

/-- C10: for every non-empty weighted list with positive total weight and
every sequence of uniform draws in `[0,1)`, `_weighted_selection` is total
and returns exactly one item per draw: the scaled draw stays strictly below
the last cumulative weight, so every bisect lookup lands inside the item
list. -/
theorem C10_weighted_selection_total {α : Type} (l : List (PyQ × α))
    (us : List PyQ) (hne : l ≠ []) (hpos : ltQ (ofIntQ 0) (totalWeight l))
    (hus : ∀ u ∈ us, leQ (ofIntQ 0) u ∧ ltQ u (ofIntQ 1)) :
    ∃ r, weighted_selection l us = .ok r ∧ r.length = us.length := by
  have hlen : (cumsum (l.map (fun p => p.1)) (ofIntQ 0)).length = l.length :=
    by rw [cumsum_length, List.length_map]
  have hwne : l.map (fun p => p.1) ≠ [] := by
    simpa using hne
  have hlast : (cumsum (l.map (fun p => p.1)) (ofIntQ 0)).getD
      ((cumsum (l.map (fun p => p.1)) (ofIntQ 0)).length - 1) (ofIntQ 0) =
        totalWeight l := by
    rw [hlen, ← List.length_map l (fun p => p.1),
      cumsum_getD_last (l.map (fun p => p.1)) hwne (ofIntQ 0)]
    rfl
  have hall : ∀ u ∈ us, ∃ y,
      (match (l.map (fun p => p.2))[bisectRight
          (cumsum (l.map (fun p => p.1)) (ofIntQ 0))
          (mulQ u (totalWeight l))]? with
        | some it => (.ok it : Except PyError α)
        | none => .error .indexError) = .ok y := by
    intro u hu
    obtain ⟨hu0, hu1⟩ := hus u hu
    have hxlt : ltQ (mulQ u (totalWeight l)) (totalWeight l) :=
      mulQ_lt_of_lt_one hu1 hpos
    have hcne : cumsum (l.map (fun p => p.1)) (ofIntQ 0) ≠ [] := by
      intro hc
      rw [hc] at hlen
      exact hne (List.length_eq_zero.mp hlen.symm)
    have hidx : bisectRight (cumsum (l.map (fun p => p.1)) (ofIntQ 0))
        (mulQ u (totalWeight l)) < (l.map (fun p => p.2)).length := by
      rw [List.length_map, ← hlen]
      exact bisectRight_lt _ _ hcne (by rw [hlast]; exact hxlt)
    obtain ⟨it, hit⟩ : ∃ it, (l.map (fun p => p.2))[bisectRight
        (cumsum (l.map (fun p => p.1)) (ofIntQ 0))
        (mulQ u (totalWeight l))]? = some it := by
      cases hg : (l.map (fun p => p.2))[bisectRight
          (cumsum (l.map (fun p => p.1)) (ofIntQ 0))
          (mulQ u (totalWeight l))]? with
      | none =>
        rw [List.getElem?_eq_none_iff] at hg
        omega
      | some it => exact ⟨it, rfl⟩
    exact ⟨it, by rw [hit]⟩
  obtain ⟨ys, hys, hyslen⟩ := @mapExcept_ok_all PyQ α
    (fun u => match (l.map (fun p => p.2))[bisectRight
        (cumsum (l.map (fun p => p.1)) (ofIntQ 0))
        (mulQ u (totalWeight l))]? with
      | some it => (.ok it : Except PyError α)
      | none => .error .indexError)
    us hall
  exact ⟨ys, hys, hyslen⟩

/-- C10 witness: a singleton population with two draws. -/
theorem C10_weighted_selection_total_witness :
    ∃ r, weighted_selection [(ofIntQ 1, "a")]
        [ofIntQ 0, { num := 1, den := 2, den_pos := by decide }] = .ok r ∧
      r.length = 2 := by
  obtain ⟨r, hr, hlen⟩ := C10_weighted_selection_total [(ofIntQ 1, "a")]
    [ofIntQ 0, { num := 1, den := 2, den_pos := by decide }]
    (by simp) (by decide) (by decide)
  exact ⟨r, hr, by simpa using hlen⟩

lemma sampleWindow_ok_count {seq : List Char} {size winLen : ℕ}
    {cutoff : PyQ} {rng : ℕ → PyQ} :
    ∀ {fuel k : ℕ} {r : (Int × Int) × ℕ},
      sampleWindow seq size winLen cutoff rng k fuel = .ok r →
      leQ (ofIntQ (countN seq r.1.1 r.1.2)) cutoff := by
  intro fuel
  induction fuel with
  | zero => intro k r h; exact absurd h (by rw [sampleWindow]; simp)
  | succ f ih =>
    intro k r h
    rw [sampleWindow] at h
    by_cases hc : leQ (ofIntQ (countN seq
        (ratTrunc (mulQ (rng k) (ofIntQ ((size : Int) - (winLen : Int)))))
        (ratTrunc (mulQ (rng k) (ofIntQ ((size : Int) - (winLen : Int)))) +
          winLen))) cutoff
    · rw [if_pos hc] at h
      injection h with h
      rw [← h]
      exact hc
    · rw [if_neg hc] at h
      exact ih h

lemma sampleWindow_error_msg {seq : List Char} {size winLen : ℕ}
    {cutoff : PyQ} {rng : ℕ → PyQ} :
    ∀ {fuel k : ℕ} {e : PyError},
      sampleWindow seq size winLen cutoff rng k fuel = .error e →
      e = .valueError "Failed to find suitable non-N sequence" := by
  intro fuel
  induction fuel with
  | zero =>
    intro k e h
    rw [sampleWindow] at h
    injection h with h
    exact h.symm
  | succ f ih =>
    intro k e h
    rw [sampleWindow] at h
    by_cases hc : leQ (ofIntQ (countN seq
        (ratTrunc (mulQ (rng k) (ofIntQ ((size : Int) - (winLen : Int)))))
        (ratTrunc (mulQ (rng k) (ofIntQ ((size : Int) - (winLen : Int)))) +
          winLen))) cutoff
    · rw [if_pos hc] at h
      exact absurd h (by simp)
    · rw [if_neg hc] at h
      exact ih h

lemma sampleLoop_ok_count {g : GenomeData} {winLen : ℕ} {cutoff : PyQ}
    {rng : ℕ → PyQ} :
    ∀ {cs : List String} {k : ℕ} {coords : List (String × Int × Int)},
      sampleLoop g winLen cutoff rng cs k = .ok coords →
      ∀ x ∈ coords, leQ (ofIntQ (countN (lookupSeq g x.1) x.2.1 x.2.2))
        cutoff := by
  intro cs
  induction cs with
  | nil =>
    intro k coords h x hx
    rw [sampleLoop] at h
    injection h with h
    rw [← h] at hx
    exact absurd hx (List.not_mem_nil x)
  | cons c rest ih =>
    intro k coords h x hx
    rw [sampleLoop] at h
    cases hw : sampleWindow (lookupSeq g c) (lookupSeq g c).length winLen
        cutoff rng k 50 with
    | error e =>
      rw [hw] at h
      simp only [] at h
      exact Except.noConfusion h
    | ok r =>
      rw [hw] at h
      simp only [] at h
      cases hrest : sampleLoop g winLen cutoff rng rest r.2 with
      | error e =>
        rw [hrest] at h
        simp only [] at h
        exact Except.noConfusion h
      | ok others =>
        rw [hrest] at h
        simp only [] at h
        injection h with h
        rw [← h] at hx
        cases hx with
        | head => exact sampleWindow_ok_count hw
        | tail _ hmem => exact ih hrest x hmem

lemma sampleLoop_error_msg {g : GenomeData} {winLen : ℕ} {cutoff : PyQ}
    {rng : ℕ → PyQ} :
    ∀ {cs : List String} {k : ℕ} {e : PyError},
      sampleLoop g winLen cutoff rng cs k = .error e →
      e = .valueError "Failed to find suitable non-N sequence" := by
  intro cs
  induction cs with
  | nil =>
    intro k e h
    rw [sampleLoop] at h
    exact absurd h (by simp)
  | cons c rest ih =>
    intro k e h
    rw [sampleLoop] at h
    cases hw : sampleWindow (lookupSeq g c) (lookupSeq g c).length winLen
        cutoff rng k 50 with
    | error e2 =>
      rw [hw] at h
      simp only [] at h
      injection h with h
      rw [← h]
      exact sampleWindow_error_msg hw
    | ok r =>
      rw [hw] at h
      simp only [] at h
      cases hrest : sampleLoop g winLen cutoff rng rest r.2 with
      | error e2 =>
        rw [hrest] at h
        simp only [] at h
        injection h with h
        rw [← h]
        exact ih hrest
      | ok others =>
        rw [hrest] at h
        simp only [] at h
        exact Except.noConfusion h

lemma leQ_mulQ_comm {a b c : PyQ} (h : leQ a (mulQ b c)) :
    leQ a (mulQ c b) := by
  unfold leQ mulQ at h ⊢
  calc a.num * (c.den * b.den) = a.num * (b.den * c.den) := by ring
    _ ≤ b.num * c.num * a.den := h
    _ = c.num * b.num * a.den := by ring

/-- C6: every region candidate returned by a successful
`get_random_sequences` call satisfies the ambiguity budget — the
case-insensitive count of ambiguous bases in its window is at most
`maxAmbiguousFraction` times the window length. -/
theorem C6_ambiguity_budget (g : GenomeData) (n winLen : ℕ)
    (chromsOpt : Option (List String)) (maxN : PyQ) (rng : ℕ → PyQ)
    (coords : List (String × Int × Int))
    (h : get_random_sequences g n winLen chromsOpt maxN rng = .ok coords) :
    ∀ x ∈ coords, leQ (ofIntQ (countN (lookupSeq g x.1) x.2.1 x.2.2))
      (mulQ maxN (ofIntQ (winLen : Int))) := by
  intro x hx
  rw [get_random_sequences] at h
  cases hsel : weighted_selection (eligibleChroms g chromsOpt winLen)
      ((List.range n).map rng) with
  | error e =>
    rw [hsel] at h
    simp only [] at h
    exact Except.noConfusion h
  | ok sel =>
    rw [hsel] at h
    simp only [] at h
    exact leQ_mulQ_comm (sampleLoop_ok_count h x hx)

/-- C6 witness: a concrete successful sampling run on an unambiguous
genome. -/
theorem C6_ambiguity_budget_witness :
    leQ (ofIntQ (countN (lookupSeq [("c", "ACGTACGT".toList)] "c") 0 4))
      (mulQ { num := 1, den := 10, den_pos := by decide }
        (ofIntQ ((4 : ℕ) : Int))) := by
  have h := C6_ambiguity_budget [("c", "ACGTACGT".toList)] 1 4 none
    { num := 1, den := 10, den_pos := by decide } (fun _ => ofIntQ 0)
    [("c", 0, 4)] (by decide) ("c", 0, 4) (by decide)
  exact h

/-- C7 (amended): when the 50-attempt retry cap is exhausted for any
selected chromosome, the whole sampling call fails — no partial result is
returned — and the error raised is a `ValueError` with the fixed message
"Failed to find suitable non-N sequence", which does not name the
chromosome (the spec's SamplingExhaustedError is this `ValueError`). -/
theorem C7_exhaustion_aborts (g : GenomeData) (n winLen : ℕ)
    (chromsOpt : Option (List String)) (maxN : PyQ) (rng : ℕ → PyQ)
    (sel : List String) (e : PyError)
    (hsel : weighted_selection (eligibleChroms g chromsOpt winLen)
        ((List.range n).map rng) = .ok sel)
    (hloop : sampleLoop g winLen (mulQ (ofIntQ (winLen : Int)) maxN) rng
        sel n = .error e) :
    e = .valueError "Failed to find suitable non-N sequence" ∧
    get_random_sequences g n winLen chromsOpt maxN rng = .error e := by
  refine ⟨sampleLoop_error_msg hloop, ?_⟩
  rw [get_random_sequences, hsel]
  exact hloop

/-- C7 witness: sampling a fully ambiguous chromosome exhausts the cap and
aborts the whole call with the fixed-message error. -/
theorem C7_exhaustion_aborts_witness :
    get_random_sequences [("chrM", "NNNN".toList)] 1 2 none (ofIntQ 0)
        (fun _ => ofIntQ 0) =
      .error (.valueError "Failed to find suitable non-N sequence") := by
  have h := C7_exhaustion_aborts [("chrM", "NNNN".toList)] 1 2 none
    (ofIntQ 0) (fun _ => ofIntQ 0) ["chrM"]
    (.valueError "Failed to find suitable non-N sequence")
    (by decide) (by decide)
  exact h.2

/-- C7 counterexample: the exhaustion error does not name the selected
chromosome — two genomes whose only chromosomes have different names
produce the very same error value, a `ValueError` with a fixed message. -/
theorem C7_exhaustion_counterexample :
    get_random_sequences [("chrA", "NNNN".toList)] 1 2 none (ofIntQ 0)
        (fun _ => ofIntQ 0) =
      get_random_sequences [("chrB", "NNNN".toList)] 1 2 none (ofIntQ 0)
        (fun _ => ofIntQ 0) ∧
    get_random_sequences [("chrA", "NNNN".toList)] 1 2 none (ofIntQ 0)
        (fun _ => ofIntQ 0) =
      .error (.valueError "Failed to find suitable non-N sequence") := by
  exact ⟨by decide, by decide⟩

/-- C8 (amended): with an empty eligibility set and at least one requested
draw, `get_random_sequences` fails before any window-sampling attempt — but
with an `IndexError` arising inside the weighted selection (`items[...]` on
an empty list), not a dedicated error; with zero requested draws it returns
an empty list without error. -/
theorem C8_empty_eligibility (g : GenomeData) (n winLen : ℕ)
    (chromsOpt : Option (List String)) (maxN : PyQ) (rng : ℕ → PyQ)
    (helig : eligibleChroms g chromsOpt winLen = []) (hn : 1 ≤ n) :
    get_random_sequences g n winLen chromsOpt maxN rng =
      .error .indexError := by
  have hne : ((List.range n).map rng) ≠ [] := by
    simp only [ne_eq, List.map_eq_nil_iff, List.range_eq_nil]
    omega
  obtain ⟨u, us', heq⟩ := List.exists_cons_of_ne_nil hne
  rw [get_random_sequences, helig, heq]
  rfl

/-- C8 witness: a genome whose only chromosome is too short for the window,
with one requested draw. -/
theorem C8_empty_eligibility_witness :
    get_random_sequences [("c", "ACG".toList)] 1 5 none
        { num := 1, den := 10, den_pos := by decide } (fun _ => ofIntQ 0) =
      .error .indexError :=
  C8_empty_eligibility [("c", "ACG".toList)] 1 5 none
    { num := 1, den := 10, den_pos := by decide } (fun _ => ofIntQ 0)
    (by decide) (by decide)

/-- C8 counterexample: a sampling call whose eligibility set is empty but
which does NOT fail — zero draws are requested, and the call returns an
empty list instead of raising. -/
theorem C8_empty_eligibility_counterexample :
    eligibleChroms [("c", "ACG".toList)] none 5 = [] ∧
    get_random_sequences [("c", "ACG".toList)] 0 5 none
        { num := 1, den := 10, den_pos := by decide } (fun _ => ofIntQ 0) =
      .ok [] := by
  exact ⟨by decide, by decide⟩
